import Mathlib

/-
Verification of the consumer offset-tracking / commit core and the changelog-table
layer of the faust repository (src/faust/transport/base.py, src/faust/tables.py,
src/faust/types/tables.py), as a shallow embedding in Lean 4.

Python dicts are modelled as insertion-ordered association lists with unique keys;
Python ints holding Kafka offsets are modelled as Nat (offsets are non-negative);
list.sort() on a list of ints is modelled as insertion sort (the sorted permutation);
awaited driver calls that can raise are modelled with Except.
-/

set_option linter.unusedVariables false

namespace Faust

/-- TopicPartition identity from faust/types: a pair of topic name and partition
number, compared field-wise. -/
structure TopicPartition where
  topic : String
  partition : Nat
deriving DecidableEq

/-- Lookup in an association-list model of a Python dict (first matching key). -/
def alookup {κ α : Type} [DecidableEq κ] : List (κ × α) → κ → Option α
  | [], _ => none
  | (k, v) :: rest, key => if k = key then some v else alookup rest key

/-- Dict update: overwrite in place when the key exists (keeping its position),
append a new entry at the end otherwise, as Python dict assignment does. -/
def aset {κ α : Type} [DecidableEq κ] : List (κ × α) → κ → α → List (κ × α)
  | [], key, v => [(key, v)]
  | (k, w) :: rest, key, v =>
    if k = key then (k, v) :: rest else (k, w) :: aset rest key v

/-- Dict deletion: remove the (first) entry with the given key. -/
def aerase {κ α : Type} [DecidableEq κ] : List (κ × α) → κ → List (κ × α)
  | [], _ => []
  | (k, w) :: rest, key => if k = key then rest else (k, w) :: aerase rest key

/-- Consumer bookkeeping state (src/faust/transport/base.py, class Consumer):
`_acked` maps each topic-partition to its list of acked offsets, `_current_offset`
keeps the currently committed offset per topic-partition, and `_recently_acked`
is the queue drained by the sensor thread. -/
structure ConsumerState where
  acked : List (TopicPartition × List Nat)
  current_offset : List (TopicPartition × Nat)
  recently_acked : List (TopicPartition × Nat)
deriving DecidableEq

/-- Reading `self._acked[tp]`: a missing key yields the empty list
(`defaultdict(list)`). -/
def lookupAcked (s : ConsumerState) (tp : TopicPartition) : List Nat :=
  (alookup s.acked tp).getD []

/-- Consumer.ack (src/faust/transport/base.py lines 148-152): append the offset to
the topic-partition's ack list, sort the list in place (Python list.sort on ints,
modelled as insertion sort), and enqueue (tp, offset) on the recently-acked queue. -/
def ack (s : ConsumerState) (tp : TopicPartition) (offset : Nat) : ConsumerState :=
  { s with
    acked := aset s.acked tp (List.insertionSort (· ≤ ·) (lookupAcked s tp ++ [offset]))
    recently_acked := s.recently_acked ++ [(tp, offset)] }

/-- Modelled from the spec: `consecutive_numbers` lives in faust/utils/functional.py,
which is not among the sources. Per spec section 4.2 and the comment block inside
`_new_offset`, `next(consecutive_numbers(acked))` is the longest initial run of the
list in which each element is its predecessor plus one. -/
def firstConsecutive : List Nat → List Nat
  | [] => []
  | [a] => [a]
  | a :: b :: rest => if b = a + 1 then a :: firstConsecutive (b :: rest) else [a]

/-- Consumer._new_offset (src/faust/transport/base.py lines 193-215): on a non-empty
ack list take the first run of consecutive numbers, remove it from the list, and
return its highest element; on an empty list return no offset. The pair is
(returned offset, ack list after the destructive slice assignment). -/
def newOffset (acked : List Nat) : Option Nat × List Nat :=
  match acked with
  | [] => (none, [])
  | a :: rest =>
    let batch := firstConsecutive (a :: rest)
    (batch.getLast?, (a :: rest).drop batch.length)

/-- Consumer._should_commit (src/faust/transport/base.py lines 187-191):
`tp not in self._current_offset or (bool(offset) and offset > self._current_offset[tp])`. -/
def shouldCommit (co : List (TopicPartition × Nat)) (tp : TopicPartition)
    (offset : Nat) : Bool :=
  match alookup co tp with
  | none => true
  | some c => offset != 0 && decide (c < offset)

/-- The commit rule as the spec states it (spec sections 4.3 and 9, and claim C3;
spec-side definition kept for comparison with `shouldCommit`): commit when the
offset exceeds CurrentOffset(tp), or when tp has never been committed and the
offset is greater than zero. -/
def specShouldCommit (co : List (TopicPartition × Nat)) (tp : TopicPartition)
    (offset : Nat) : Bool :=
  match alookup co tp with
  | none => decide (0 < offset)
  | some c => decide (c < offset)

/-- Loop body of Consumer.maybe_commit (src/faust/transport/base.py lines 167-185)
over the snapshot of ack-dict keys, for the runs in which every driver commit
succeeds: for each topic-partition compute the new offset (destructively removing
the consecutive run), and when an offset was produced and _should_commit accepts
it, update current_offset and perform the driver commit. The returned list is the
sequence of (tp, offset) driver commits issued, in order; topic metadata is
opaque to this layer and omitted. -/
def maybeCommitAux : List TopicPartition → ConsumerState →
    ConsumerState × List (TopicPartition × Nat)
  | [], s => (s, [])
  | tp :: rest, s =>
    let r := newOffset (lookupAcked s tp)
    let s1 := { s with acked := aset s.acked tp r.2 }
    match r.1 with
    | none => maybeCommitAux rest s1
    | some off =>
      if shouldCommit s1.current_offset tp off then
        let s2 := { s1 with current_offset := aset s1.current_offset tp off }
        let t := maybeCommitAux rest s2
        (t.1, (tp, off) :: t.2)
      else maybeCommitAux rest s1

/-- Consumer.maybe_commit with every driver commit succeeding: iterate over the
keys of the ack dict. `did_commit` is true iff the commit list is non-empty. -/
def maybeCommit (s : ConsumerState) : ConsumerState × List (TopicPartition × Nat) :=
  maybeCommitAux (s.acked.map Prod.fst) s

/-- Consumer.maybe_commit with a fallible driver: `commitOk tp off` says whether the
awaited `_do_commit(tp, off, meta)` succeeds. On failure the exception propagates
(there is no handler in maybe_commit), carrying the consumer state as it stands at
the raise together with the failing (tp, offset). Note the source assigns
`self._current_offset[tp] = offset` before awaiting the commit. -/
def maybeCommitAuxE (commitOk : TopicPartition → Nat → Bool) :
    List TopicPartition → ConsumerState →
      Except (ConsumerState × TopicPartition × Nat)
        (ConsumerState × List (TopicPartition × Nat))
  | [], s => Except.ok (s, [])
  | tp :: rest, s =>
    let r := newOffset (lookupAcked s tp)
    let s1 := { s with acked := aset s.acked tp r.2 }
    match r.1 with
    | none => maybeCommitAuxE commitOk rest s1
    | some off =>
      if shouldCommit s1.current_offset tp off then
        let s2 := { s1 with current_offset := aset s1.current_offset tp off }
        if commitOk tp off then
          match maybeCommitAuxE commitOk rest s2 with
          | Except.ok t => Except.ok (t.1, (tp, off) :: t.2)
          | Except.error e => Except.error e
        else Except.error (s2, tp, off)
      else maybeCommitAuxE commitOk rest s1

/-- Fallible-driver maybe_commit over the ack-dict key snapshot. -/
def maybeCommitE (commitOk : TopicPartition → Nat → Bool) (s : ConsumerState) :
    Except (ConsumerState × TopicPartition × Nat)
      (ConsumerState × List (TopicPartition × Nat)) :=
  maybeCommitAuxE commitOk (s.acked.map Prod.fst) s

/-- Consumer._commit_handler (src/faust/transport/base.py lines 154-158), bounded to
n ticks: `while 1: await self.maybe_commit(); await asyncio.sleep(...)`. The body
has no exception handler, so an error raised by maybe_commit terminates the loop
task with that error. -/
def commitLoop (commitOk : TopicPartition → Nat → Bool) :
    Nat → ConsumerState → Except (ConsumerState × TopicPartition × Nat) ConsumerState
  | 0, s => Except.ok s
  | n + 1, s =>
    match maybeCommitE commitOk s with
    | Except.ok t => commitLoop commitOk n t.1
    | Except.error e => Except.error e

/-- One operation of a consumer session affecting the commit bookkeeping:
an ack call or a maybe_commit tick. -/
inductive Op where
  | ackOp : TopicPartition → Nat → Op
  | commitOp : Op

/-- Apply one session operation to the consumer state. -/
def applyOp (s : ConsumerState) : Op → ConsumerState
  | Op.ackOp tp o => ack s tp o
  | Op.commitOp => (maybeCommit s).1

/-- Run a sequence of session operations. -/
def runOps (ops : List Op) (s : ConsumerState) : ConsumerState :=
  ops.foldl applyOp s

/-- Runtime key of the `_autoack` dict. The field is declared
`_autoack: MutableMapping[str, bool]` ("Autoack flag by topic"), so configured
per-topic overrides are stored under the topic string; `on_message_ready`, however,
indexes the dict with the TopicPartition object. Both key shapes can therefore
occur at runtime and never compare equal to each other. -/
inductive AutoackKey where
  | topicKey : String → AutoackKey
  | tpKey : TopicPartition → AutoackKey
deriving DecidableEq

/-- The `_autoack` defaultdict: explicit entries plus the constructor-captured
global default returned (and inserted) for any missing key. -/
structure AutoackMap where
  defaultFlag : Bool
  entries : List (AutoackKey × Bool)

/-- Reading `self._autoack[k]`: the stored entry, or the global default for a
missing key (`defaultdict(lambda: autoack)`). -/
def autoackLookup (a : AutoackMap) (k : AutoackKey) : Bool :=
  (alookup a.entries k).getD a.defaultFlag

/-- Modelled from the spec: the per-topic autoack override of the configuration
table (spec section 6, `autoack[topic]`) is stored under the topic string, matching
the declared type of `_autoack`. This is the flag the claim says governs acking. -/
def configuredAutoack (a : AutoackMap) (topic : String) : Bool :=
  autoackLookup a (AutoackKey.topicKey topic)

/-- MessageRef payload (src/faust/transport/base.py lines 54-70): the weak
reference itself is dropped; the fields carried alongside it are kept. -/
structure MessageRef where
  tp : TopicPartition
  offset : Nat
  consumer_id : Nat
deriving DecidableEq

/-- Consumer.on_message_ready (src/faust/transport/base.py lines 142-146): when
a message goes out of scope, ack it if `self._autoack[tp]` is true, where the
lookup key is the TopicPartition taken from the ref. -/
def on_message_ready (a : AutoackMap) (s : ConsumerState) (ref : MessageRef) :
    ConsumerState :=
  if autoackLookup a (AutoackKey.tpKey ref.tp) then ack s ref.tp ref.offset else s

/-- Fetched message payload (faust/types Message): the fields track_message uses. -/
structure Msg where
  topic : String
  partition : Nat
  offset : Nat
deriving DecidableEq

/-- Observable events of the delivery path, in program order. -/
inductive SensorEvent where
  | message_in : Nat → TopicPartition → Nat → Msg → SensorEvent
  | callbackInvoked : Msg → SensorEvent
deriving DecidableEq

/-- Delivery-path state: the strong list of MessageRefs (`_dirty_messages`) and
the trace of sensor emissions and callback invocations. -/
structure TrackState where
  dirty_messages : List MessageRef
  trace : List SensorEvent
deriving DecidableEq

/-- Consumer.track_message (src/faust/transport/base.py lines 130-140): build the
TopicPartition of the message, append a MessageRef carrying (tp, offset,
consumer id) to the dirty list, then await the message_in sensor hook with
(consumer id, tp, offset, message). -/
def track_message (cid : Nat) (st : TrackState) (m : Msg) (offset : Nat) : TrackState :=
  { dirty_messages := st.dirty_messages ++ [⟨⟨m.topic, m.partition⟩, offset, cid⟩]
    trace := st.trace ++ [SensorEvent.message_in cid ⟨m.topic, m.partition⟩ offset m] }

/-- Modelled from the spec: the driver loop of a concrete transport (for example
faust/transport/aiokafka.py, which is not among the sources) calls track_message
for each fetched message and then invokes the user callback (spec section 4.3). -/
def deliver (cid : Nat) (st : TrackState) (m : Msg) (offset : Nat) : TrackState :=
  let st1 := track_message cid st m offset
  { st1 with trace := st1.trace ++ [SensorEvent.callbackInvoked m] }

/-- Table state (src/faust/tables.py): the underlying keyed map plus the queue of
changelog records scheduled with app.send_soon; a record's value of `none` is the
tombstone (Python None). -/
structure TableState (K V : Type) where
  data : List (K × V)
  changelog : List (K × Option V)
deriving DecidableEq

/-- Table.on_key_set (src/faust/tables.py lines 54-55): schedule
`send_soon(changelog_topic, key=key, value=value)`; the send queue is modelled
as the changelog list. -/
def on_key_set {K V : Type} (t : TableState K V) (k : K) (v : V) : TableState K V :=
  { t with changelog := t.changelog ++ [(k, some v)] }

/-- Table.on_key_del (src/faust/tables.py lines 57-58): schedule a tombstone
`send_soon(changelog_topic, key=key, value=None)`. -/
def on_key_del {K V : Type} (t : TableState K V) (k : K) : TableState K V :=
  { t with changelog := t.changelog ++ [(k, none)] }

/-- Modelled from the spec: ManagedUserDict (faust/utils/collections.py, not among
the sources) routes `table[k] = v` through on_key_set and the map update, both
completed before the call returns (spec section 4.8). -/
def tableSet {K V : Type} [DecidableEq K] (t : TableState K V) (k : K) (v : V) :
    TableState K V :=
  let t1 := on_key_set t k v
  { t1 with data := aset t1.data k v }

/-- Modelled from the spec: ManagedUserDict routes `del table[k]` through
on_key_del and the map entry removal, both completed before the call returns
(spec section 4.8). -/
def tableDel {K V : Type} [DecidableEq K] (t : TableState K V) (k : K) :
    TableState K V :=
  let t1 := on_key_del t k
  { t1 with data := aerase t1.data k }

/-- Table._changelog_topic_name (src/faust/tables.py lines 64-65): the body is
`return '...'` of the format template itself; no substitution is applied. The app
id and the table name are the inputs of the derivation but do not occur in the
result. Braces of the template are written with character escapes. -/
def changelogTopicName (appId tableName : String) : String :=
  "\x7b0.app.id\x7d-\x7b0.table_name\x7d-changelog"

/-- The changelog topic name the spec requires (spec sections 3 and 6):
appId-tableName-changelog with the actual values substituted. -/
def specChangelogTopicName (appId tableName : String) : String :=
  appId ++ "-" ++ tableName ++ "-changelog"

end Faust

namespace Faust

theorem alookup_aset_self {κ α : Type} [DecidableEq κ] (m : List (κ × α)) (k : κ) (v : α) :
    alookup (aset m k v) k = some v := by
  induction m with
  | nil => simp [aset, alookup]
  | cons p rest ih =>
    obtain ⟨a, b⟩ := p
    by_cases h : a = k
    · simp [aset, alookup, h]
    · simp [aset, alookup, h, ih]

theorem alookup_aset_ne {κ α : Type} [DecidableEq κ] (m : List (κ × α)) (k k' : κ) (v : α)
    (h : k' ≠ k) : alookup (aset m k v) k' = alookup m k' := by
  have hkk : ¬ k = k' := fun e => h e.symm
  induction m with
  | nil => simp [aset, alookup, hkk]
  | cons p rest ih =>
    obtain ⟨a, b⟩ := p
    by_cases ha : a = k
    · subst ha
      simp [aset, alookup, hkk]
    · by_cases ha' : a = k'
      · simp [aset, alookup, ha, ha', h]
      · simp [aset, alookup, ha, ha', ih]

theorem alookup_eq_none_of_not_mem {κ α : Type} [DecidableEq κ] (m : List (κ × α)) (k : κ)
    (h : k ∉ m.map Prod.fst) : alookup m k = none := by
  induction m with
  | nil => rfl
  | cons p rest ih =>
    obtain ⟨a, b⟩ := p
    simp only [List.map_cons, List.mem_cons] at h
    push_neg at h
    have hak : ¬ a = k := fun e => h.1 e.symm
    simp [alookup, hak, ih h.2]

theorem alookup_aerase_self {κ α : Type} [DecidableEq κ] (m : List (κ × α)) (k : κ)
    (hnd : (m.map Prod.fst).Nodup) : alookup (aerase m k) k = none := by
  induction m with
  | nil => rfl
  | cons p rest ih =>
    obtain ⟨a, b⟩ := p
    simp only [List.map_cons, List.nodup_cons] at hnd
    by_cases h : a = k
    · subst h
      simpa [aerase] using alookup_eq_none_of_not_mem rest a hnd.1
    · simp [aerase, alookup, h, ih hnd.2]

theorem alookup_aerase_ne {κ α : Type} [DecidableEq κ] (m : List (κ × α)) (k k' : κ)
    (h : k' ≠ k) : alookup (aerase m k) k' = alookup m k' := by
  have hkk : ¬ k = k' := fun e => h e.symm
  induction m with
  | nil => rfl
  | cons p rest ih =>
    obtain ⟨a, b⟩ := p
    by_cases ha : a = k
    · subst ha
      simp [aerase, alookup, hkk]
    · by_cases ha' : a = k'
      · simp [aerase, alookup, ha, ha', h]
      · simp [aerase, alookup, ha, ha', ih]

theorem firstConsecutive_cons (a : Nat) (rest : List Nat) :
    ∃ t, firstConsecutive (a :: rest) = a :: t := by
  cases rest with
  | nil => exact ⟨[], rfl⟩
  | cons b r =>
    by_cases h : b = a + 1 <;> simp [firstConsecutive, h]

theorem firstConsecutive_ne_nil (l : List Nat) (h : l ≠ []) : firstConsecutive l ≠ [] := by
  cases l with
  | nil => exact absurd rfl h
  | cons a rest =>
    obtain ⟨t, ht⟩ := firstConsecutive_cons a rest
    simp [ht]

theorem firstConsecutive_take :
    ∀ l : List Nat, firstConsecutive l = l.take (firstConsecutive l).length
  | [] => rfl
  | [a] => rfl
  | a :: b :: rest => by
    by_cases h : b = a + 1
    · have ih := firstConsecutive_take (b :: rest)
      simp only [firstConsecutive, if_pos h, List.length_cons, List.take_succ_cons]
      exact congrArg (a :: ·) ih
    · simp [firstConsecutive, if_neg h]

theorem firstConsecutive_chain :
    ∀ l : List Nat, List.Chain' (fun a b => b = a + 1) (firstConsecutive l)
  | [] => List.chain'_nil
  | [a] => by simp [firstConsecutive]
  | a :: b :: rest => by
    by_cases h : b = a + 1
    · have ih := firstConsecutive_chain (b :: rest)
      obtain ⟨t, ht⟩ := firstConsecutive_cons b rest
      rw [ht] at ih
      simp only [firstConsecutive, if_pos h, ht]
      exact (List.chain'_cons).mpr ⟨h, ih⟩
    · simp [firstConsecutive, if_neg h]

theorem firstConsecutive_max :
    ∀ (l : List Nat) (k : Nat), k ≤ l.length →
      List.Chain' (fun a b => b = a + 1) (l.take k) →
      k ≤ (firstConsecutive l).length
  | [], k, hk, _ => by simp only [firstConsecutive, List.length_nil]; exact hk
  | [a], k, hk, _ => by simpa [firstConsecutive] using hk
  | a :: b :: rest, 0, _, _ => Nat.zero_le _
  | a :: b :: rest, 1, _, _ => by
    have h1 : 1 ≤ (firstConsecutive (a :: b :: rest)).length := by
      have := firstConsecutive_ne_nil (a :: b :: rest) (by simp)
      exact Nat.succ_le_of_lt (List.length_pos.mpr this)
    exact h1
  | a :: b :: rest, k + 2, hk, hc => by
    simp only [List.take_succ_cons, List.chain'_cons] at hc
    have h : b = a + 1 := hc.1
    simp only [firstConsecutive, if_pos h, List.length_cons]
    have hk' : k + 1 ≤ (b :: rest).length := by
      simpa [Nat.succ_le_succ_iff] using hk
    have := firstConsecutive_max (b :: rest) (k + 1) hk' hc.2
    omega

/-- C1: for a non-empty sorted ack list, _new_offset returns the last element of the
longest initial run in which each element is the predecessor plus one, and removes
exactly that run from the list; for an empty ack list it returns no offset. -/
theorem c1_new_offset (l : List Nat) (hl : List.Chain' (· < ·) l) (hne : l ≠ []) :
    (newOffset l).1 = (firstConsecutive l).getLast? ∧
    firstConsecutive l ≠ [] ∧
    (newOffset l).2 = l.drop (firstConsecutive l).length ∧
    firstConsecutive l = l.take (firstConsecutive l).length ∧
    List.Chain' (fun a b => b = a + 1) (firstConsecutive l) ∧
    (∀ k, k ≤ l.length → List.Chain' (fun a b => b = a + 1) (l.take k) →
      k ≤ (firstConsecutive l).length) ∧
    (newOffset []).1 = none := by
  cases l with
  | nil => exact absurd rfl hne
  | cons a rest =>
    refine ⟨rfl, firstConsecutive_ne_nil _ (by simp), rfl,
      firstConsecutive_take _, firstConsecutive_chain _,
      fun k hk hc => firstConsecutive_max _ k hk hc, rfl⟩

/-- C1 witness: the worked gap example; acked [1, 2, 5] commits offset 2 and leaves [5]. -/
theorem c1_witness :
    (newOffset [1, 2, 5]).1 = some 2 ∧ (newOffset [1, 2, 5]).2 = [5] ∧
    2 ≤ (firstConsecutive [1, 2, 5]).length := by
  have h := c1_new_offset [1, 2, 5] (by simp [List.chain'_cons]) (by decide)
  exact ⟨h.1.trans (by decide), h.2.2.1.trans (by decide),
    h.2.2.2.2.2.1 2 (by decide) (by simp [List.chain'_cons])⟩

end Faust

namespace Faust

/-- Concrete topic-partition used in the concrete counterexamples and witnesses. -/
def tp0 : TopicPartition := ⟨"t", 0⟩

/-- Fresh consumer bookkeeping state: no acks, no commits, empty queue. -/
def s0 : ConsumerState := ⟨[], [], []⟩

/-- C2 counterexample: acking offset 5 twice leaves the ack list [5, 5], not the
[5] a single ack leaves, so the AckSet state differs; and in the scenario where
offsets 1, 2, 3 are acked with offset 2 acked twice, the first maybe_commit issues
the driver commit at offset 2, while without the duplicate it commits offset 3,
so the subsequent commit offsets differ as well. -/
theorem c2_counterexample :
    lookupAcked (ack (ack s0 tp0 5) tp0 5) tp0 ≠ lookupAcked (ack s0 tp0 5) tp0 ∧
    (maybeCommit (ack (ack (ack (ack s0 tp0 1) tp0 2) tp0 2) tp0 3)).2 ≠
      (maybeCommit (ack (ack (ack s0 tp0 1) tp0 2) tp0 3)).2 := by
  exact ⟨by decide, by decide⟩

/-- C2 amended: acking the same offset twice is not idempotent — the second ack
appends a duplicate entry, so the AckSet differs from the one a single call leaves
and the later commit offsets can differ — but the set of distinct acknowledged
offsets is the same as after a single ack, and the list stays sorted. -/
theorem c2_amended (s : ConsumerState) (tp : TopicPartition) (o : Nat) :
    (lookupAcked (ack (ack s tp o) tp o) tp).toFinset
      = (lookupAcked (ack s tp o) tp).toFinset ∧
    List.Sorted (· ≤ ·) (lookupAcked (ack (ack s tp o) tp o) tp) := by
  have h1 : lookupAcked (ack s tp o) tp
      = List.insertionSort (· ≤ ·) (lookupAcked s tp ++ [o]) := by
    simp [ack, lookupAcked, alookup_aset_self]
  have h2 : lookupAcked (ack (ack s tp o) tp o) tp
      = List.insertionSort (· ≤ ·) (lookupAcked (ack s tp o) tp ++ [o]) := by
    simp [ack, lookupAcked, alookup_aset_self]
  have ho : o ∈ lookupAcked (ack s tp o) tp := by
    rw [h1]
    exact (List.perm_insertionSort (· ≤ ·) _).mem_iff.mpr (by simp)
  constructor
  · rw [h2]
    ext x
    simp only [List.mem_toFinset]
    rw [(List.perm_insertionSort (· ≤ ·) (lookupAcked (ack s tp o) tp ++ [o])).mem_iff]
    simp only [List.mem_append, List.mem_singleton]
    constructor
    · rintro (hx | rfl)
      · exact hx
      · exact ho
    · intro hx
      exact Or.inl hx
  · rw [h2]
    exact List.sorted_insertionSort (· ≤ ·) _

/-- C3 counterexample: for a topic-partition that has never been committed and
offset 0, _should_commit returns true, while the claimed rule (commit only when
the offset exceeds CurrentOffset, or the tp is uncommitted and the offset is
positive) returns false. -/
theorem c3_counterexample :
    shouldCommit [] tp0 0 = true ∧ specShouldCommit [] tp0 0 = false := by
  exact ⟨rfl, rfl⟩

/-- C3 amended: _should_commit(tp, offset) returns true iff tp has never been
committed (regardless of the offset, including offset 0), or offset is non-zero
and greater than CurrentOffset(tp). -/
theorem c3_amended (co : List (TopicPartition × Nat)) (tp : TopicPartition) (offset : Nat) :
    shouldCommit co tp offset = true ↔
      (alookup co tp = none ∨ ∃ c, alookup co tp = some c ∧ offset ≠ 0 ∧ c < offset) := by
  unfold shouldCommit
  cases h : alookup co tp <;> simp [h]

end Faust

namespace Faust

theorem maybeCommitAuxE_error_co (commitOk : TopicPartition → Nat → Bool)
    (keys : List TopicPartition) :
    ∀ (s s' : ConsumerState) (tp : TopicPartition) (off : Nat),
      maybeCommitAuxE commitOk keys s = Except.error (s', tp, off) →
      alookup s'.current_offset tp = some off := by
  induction keys with
  | nil =>
    intro s s' tp off h
    simp [maybeCommitAuxE] at h
  | cons key rest ih =>
    intro s s' tp off h
    simp only [maybeCommitAuxE] at h
    split at h
    · exact ih _ _ _ _ h
    · split at h
      · split at h
        · split at h
          · simp at h
          · simp only [Except.error.injEq] at h
            subst h
            exact ih _ _ _ _ (by assumption)
        · simp only [Except.error.injEq, Prod.mk.injEq] at h
          obtain ⟨rfl, rfl, rfl⟩ := h
          exact alookup_aset_self _ _ _
      · exact ih _ _ _ _ h

/-- Consumer state of the C4 scenario: one acked offset on tp0, nothing committed. -/
def c4state : ConsumerState := ⟨[(tp0, [1])], [], []⟩

/-- Consumer state at the moment the driver commit raises in the C4 scenario. -/
def c4err : ConsumerState := ⟨[(tp0, [])], [(tp0, 1)], []⟩

/-- C4 counterexample: with one acked offset and a driver whose commit call raises,
maybe_commit escapes with the exception and CurrentOffset(tp0) has moved from
unset to 1 — it is not left unchanged, because the source updates
_current_offset[tp] before awaiting _do_commit. -/
theorem c4_counterexample :
    maybeCommitE (fun _ _ => false) c4state = Except.error (c4err, tp0, 1) ∧
    alookup c4state.current_offset tp0 = none ∧
    alookup c4err.current_offset tp0 = some 1 :=
  ⟨rfl, rfl, rfl⟩

/-- C4 amended: if the driver commit performed inside maybe_commit raises, then
CurrentOffset for the affected topic-partition has already been advanced to the
new offset before the commit call, and the exception propagates out of
maybe_commit; since the periodic commit loop has no exception handler, the loop
terminates with that error instead of retrying at the next tick. -/
theorem c4_amended (commitOk : TopicPartition → Nat → Bool) (s s' : ConsumerState)
    (tp : TopicPartition) (off : Nat)
    (h : maybeCommitE commitOk s = Except.error (s', tp, off)) :
    alookup s'.current_offset tp = some off ∧
    ∀ n, commitLoop commitOk (n + 1) s = Except.error (s', tp, off) := by
  refine ⟨maybeCommitAuxE_error_co commitOk _ s s' tp off h, ?_⟩
  intro n
  simp [commitLoop, maybeCommitE] at h ⊢
  rw [h]

/-- C4 witness: the amended statement at the concrete failing scenario. -/
theorem c4_witness :
    alookup c4err.current_offset tp0 = some 1 ∧
    commitLoop (fun _ _ => false) 3 c4state = Except.error (c4err, tp0, 1) := by
  have h := c4_amended (fun _ _ => false) c4state c4err tp0 1 rfl
  exact ⟨h.1, h.2 2⟩

/-- C5: a table set updates the underlying map at the key (leaving other keys
untouched) and enqueues exactly one changelog record (k, v) before returning, and
a table delete removes the entry and enqueues exactly one tombstone (k, null)
before returning. -/
theorem c5_table_changelog {K V : Type} [DecidableEq K] (t : TableState K V) (k k' : K)
    (v : V) (hnd : (t.data.map Prod.fst).Nodup) (hk : k' ≠ k) :
    alookup (tableSet t k v).data k = some v ∧
    alookup (tableSet t k v).data k' = alookup t.data k' ∧
    (tableSet t k v).changelog = t.changelog ++ [(k, some v)] ∧
    alookup (tableDel t k).data k = none ∧
    alookup (tableDel t k).data k' = alookup t.data k' ∧
    (tableDel t k).changelog = t.changelog ++ [(k, none)] := by
  refine ⟨?_, ?_, rfl, ?_, ?_, rfl⟩
  · exact alookup_aset_self _ _ _
  · exact alookup_aset_ne _ _ _ _ hk
  · exact alookup_aerase_self _ _ hnd
  · exact alookup_aerase_ne _ _ _ hk

/-- C5 witness: the table mutation contract at a concrete table. -/
theorem c5_witness :
    alookup (tableSet (⟨[(1, 10)], []⟩ : TableState Nat Nat) 2 20).data 2 = some 20 ∧
    alookup (tableSet (⟨[(1, 10)], []⟩ : TableState Nat Nat) 2 20).data 1
      = alookup ([(1, 10)] : List (Nat × Nat)) 1 ∧
    (tableSet (⟨[(1, 10)], []⟩ : TableState Nat Nat) 2 20).changelog = [(2, some 20)] ∧
    alookup (tableDel (⟨[(1, 10)], []⟩ : TableState Nat Nat) 2).data 2 = none ∧
    alookup (tableDel (⟨[(1, 10)], []⟩ : TableState Nat Nat) 2).data 1
      = alookup ([(1, 10)] : List (Nat × Nat)) 1 ∧
    (tableDel (⟨[(1, 10)], []⟩ : TableState Nat Nat) 2).changelog = [(2, none)] := by
  have h := c5_table_changelog (⟨[(1, 10)], []⟩ : TableState Nat Nat) 2 1 20
    (by decide) (by decide)
  exact h

/-- C6: code bug — _changelog_topic_name returns its format template without
substituting the application id and table name, so for every app id and table
name the derived changelog topic name is the constant template string, not the
required appId-tableName-changelog. -/
theorem c6_bug :
    changelogTopicName "myapp" "mytable"
        = "\x7b0.app.id\x7d-\x7b0.table_name\x7d-changelog" ∧
    changelogTopicName "myapp" "mytable" ≠ specChangelogTopicName "myapp" "mytable" ∧
    (∀ a b a' b' : String, changelogTopicName a b = changelogTopicName a' b') :=
  ⟨rfl, by decide, fun a b a' b' => rfl⟩

/-- Autoack dict of the C8 scenario: global default true, per-topic override
disabling autoack for topic "t" (stored under the topic string, as the declared
type MutableMapping[str, bool] of _autoack prescribes). -/
def c8Autoack : AutoackMap := ⟨true, [(AutoackKey.topicKey "t", false)]⟩

/-- Released message ref of the C8 scenario: topic "t", partition 0, offset 7. -/
def c8Ref : MessageRef := ⟨tp0, 7, 0⟩

/-- C8: code bug — on_message_ready indexes the str-keyed _autoack mapping with
the TopicPartition object, so the per-topic override autoack["t"] = false is
never consulted: the release of a message on ("t", 0) is acked even though the
configured flag for its topic is false. In general, whenever all stored entries
are per-topic overrides, the code's decision is always the global default. -/
theorem c8_bug :
    configuredAutoack c8Autoack "t" = false ∧
    lookupAcked (on_message_ready c8Autoack s0 c8Ref) tp0 = [7] ∧
    (∀ (a : AutoackMap) (s : ConsumerState) (ref : MessageRef),
      (∀ p ∈ a.entries, ∃ topic, p.1 = AutoackKey.topicKey topic) →
      on_message_ready a s ref
        = if a.defaultFlag then ack s ref.tp ref.offset else s) := by
  refine ⟨rfl, by decide, ?_⟩
  intro a s ref hall
  unfold on_message_ready autoackLookup
  have hnone : alookup a.entries (AutoackKey.tpKey ref.tp) = none := by
    apply alookup_eq_none_of_not_mem
    intro hmem
    obtain ⟨p, hp, hfst⟩ := List.mem_map.mp hmem
    obtain ⟨topic, htk⟩ := hall p hp
    rw [htk] at hfst
    simp at hfst
  rw [hnone]
  simp

/-- C10: delivering a fetched message appends a MessageRef carrying the message's
topic-partition, the offset and the consumer id to DirtyMessages, emits the
message_in sensor event with (consumer_id, tp, offset, message), and then invokes
the user callback, the sensor emission preceding the callback invocation in the
trace; track_message itself ends with the sensor emission. -/
theorem c10_track_message (cid : Nat) (st : TrackState) (m : Msg) (offset : Nat) :
    (deliver cid st m offset).dirty_messages
        = st.dirty_messages ++ [⟨⟨m.topic, m.partition⟩, offset, cid⟩] ∧
    (deliver cid st m offset).trace
        = st.trace ++ [SensorEvent.message_in cid ⟨m.topic, m.partition⟩ offset m,
            SensorEvent.callbackInvoked m] ∧
    (track_message cid st m offset).trace
        = st.trace ++ [SensorEvent.message_in cid ⟨m.topic, m.partition⟩ offset m] := by
  refine ⟨rfl, ?_, rfl⟩
  simp [deliver, track_message]

end Faust

namespace Faust

theorem co_mono_step (co : List (TopicPartition × Nat)) (key tp : TopicPartition)
    (off c : Nat) (h : alookup co tp = some c) (hsc : shouldCommit co key off = true) :
    ∃ d, alookup (aset co key off) tp = some d ∧ c ≤ d := by
  by_cases hk : key = tp
  · subst hk
    unfold shouldCommit at hsc
    rw [h] at hsc
    simp at hsc
    exact ⟨off, alookup_aset_self _ _ _, Nat.le_of_lt hsc.2⟩
  · refine ⟨c, ?_, Nat.le_refl c⟩
    rw [alookup_aset_ne co key tp off (fun e => hk e.symm)]
    exact h

theorem co_mono_aux (tp : TopicPartition) :
    ∀ (keys : List TopicPartition) (s : ConsumerState) (c : Nat),
      alookup s.current_offset tp = some c →
      ∃ d, alookup (maybeCommitAux keys s).1.current_offset tp = some d ∧ c ≤ d := by
  intro keys
  induction keys with
  | nil => exact fun s c h => ⟨c, h, Nat.le_refl c⟩
  | cons key rest ih =>
    intro s c h
    simp only [maybeCommitAux]
    split
    · exact ih _ c h
    · split
      · rename_i off hoff hsc
        obtain ⟨d0, hd0, hcd0⟩ := co_mono_step s.current_offset key tp off c h hsc
        obtain ⟨d, hd, hdd⟩ :=
          ih (⟨aset s.acked key (newOffset (lookupAcked s key)).2,
               aset s.current_offset key off, s.recently_acked⟩ : ConsumerState)
            d0 (by exact hd0)
        exact ⟨d, hd, Nat.le_trans hcd0 hdd⟩
      · exact ih _ c h

/-- C9: within one session, CurrentOffset(tp), once set, never decreases across any
sequence of ack and maybe_commit calls. -/
theorem c9_monotone (ops : List Op) (s : ConsumerState) (tp : TopicPartition)
    (c c' : Nat) (h1 : alookup s.current_offset tp = some c)
    (h2 : alookup (runOps ops s).current_offset tp = some c') :
    c ≤ c' := by
  have main : ∀ (l : List Op) (t : ConsumerState) (a : Nat),
      alookup t.current_offset tp = some a →
      ∃ d, alookup (runOps l t).current_offset tp = some d ∧ a ≤ d := by
    intro l
    induction l with
    | nil => exact fun t a h => ⟨a, h, Nat.le_refl a⟩
    | cons op rest ih =>
      intro t a h
      cases op with
      | ackOp tp' o => exact ih _ a h
      | commitOp =>
        obtain ⟨d0, hd0, had0⟩ := co_mono_aux tp (t.acked.map Prod.fst) t a h
        obtain ⟨d, hd, hdd⟩ := ih _ d0 hd0
        exact ⟨d, hd, Nat.le_trans had0 hdd⟩
  obtain ⟨d, hd, hcd⟩ := main ops s c h1
  rw [h2] at hd
  exact hcd.trans (Nat.le_of_eq (Option.some.inj hd).symm)

/-- Consumer state of the C9 witness: CurrentOffset(tp0) already at 3. -/
def c9state : ConsumerState := ⟨[], [(tp0, 3)], []⟩

/-- Session operations of the C9 witness: ack offset 4 on tp0, then one commit tick. -/
def c9ops : List Op := [Op.ackOp tp0 4, Op.commitOp]

/-- C9 witness: the session moves CurrentOffset(tp0) from 3 to 4, and monotonicity
gives 3 less-or-equal 4. -/
theorem c9_witness :
    alookup (runOps c9ops c9state).current_offset tp0 = some 4 ∧ 3 ≤ 4 := by
  have h2 : alookup (runOps c9ops c9state).current_offset tp0 = some 4 := by decide
  exact ⟨h2, c9_monotone c9ops c9state tp0 3 4 (by decide) h2⟩

end Faust

namespace Faust

theorem maybeCommitAux_frame (tp : TopicPartition) :
    ∀ (keys : List TopicPartition) (s : ConsumerState), tp ∉ keys →
      alookup (maybeCommitAux keys s).1.acked tp = alookup s.acked tp ∧
      alookup (maybeCommitAux keys s).1.current_offset tp
        = alookup s.current_offset tp := by
  intro keys
  induction keys with
  | nil => exact fun s _ => ⟨rfl, rfl⟩
  | cons key rest ih =>
    intro s hmem
    have hkey : tp ≠ key := fun e => hmem (e ▸ List.mem_cons_self key rest)
    have hrest : tp ∉ rest := fun hr => hmem (List.mem_cons_of_mem key hr)
    simp only [maybeCommitAux]
    split
    · have h1 := ih (⟨aset s.acked key (newOffset (lookupAcked s key)).2,
        s.current_offset, s.recently_acked⟩ : ConsumerState) hrest
      exact ⟨h1.1.trans (alookup_aset_ne s.acked key tp _ hkey), h1.2⟩
    · split
      · rename_i off hoff hsc
        have h1 := ih (⟨aset s.acked key (newOffset (lookupAcked s key)).2,
          aset s.current_offset key off, s.recently_acked⟩ : ConsumerState) hrest
        exact ⟨h1.1.trans (alookup_aset_ne s.acked key tp _ hkey),
          h1.2.trans (alookup_aset_ne s.current_offset key tp _ hkey)⟩
      · have h1 := ih (⟨aset s.acked key (newOffset (lookupAcked s key)).2,
          s.current_offset, s.recently_acked⟩ : ConsumerState) hrest
        exact ⟨h1.1.trans (alookup_aset_ne s.acked key tp _ hkey), h1.2⟩

theorem maybeCommitAux_commits :
    ∀ (keys : List TopicPartition) (s : ConsumerState) (p : TopicPartition × Nat),
      p ∈ (maybeCommitAux keys s).2 → p.1 ∈ keys := by
  intro keys
  induction keys with
  | nil =>
    intro s p hp
    simp [maybeCommitAux] at hp
  | cons key rest ih =>
    intro s p hp
    simp only [maybeCommitAux] at hp
    split at hp
    · exact List.mem_cons_of_mem key (ih _ p hp)
    · split at hp
      · rcases List.mem_cons.mp hp with h1 | h2
        · rw [h1]
          exact List.mem_cons_self key rest
        · exact List.mem_cons_of_mem key (ih _ p h2)
      · exact List.mem_cons_of_mem key (ih _ p hp)

theorem maybeCommitAux_append :
    ∀ (xs ys : List TopicPartition) (s : ConsumerState),
      maybeCommitAux (xs ++ ys) s
        = ((maybeCommitAux ys (maybeCommitAux xs s).1).1,
           (maybeCommitAux xs s).2 ++ (maybeCommitAux ys (maybeCommitAux xs s).1).2) := by
  intro xs
  induction xs with
  | nil =>
    intro ys s
    simp [maybeCommitAux]
  | cons key rest ih =>
    intro ys s
    simp only [List.cons_append, maybeCommitAux]
    split
    · exact ih ys _
    · split
      · simp only [List.append_eq]
        rw [ih ys]
        simp
      · exact ih ys _

theorem shouldCommit_congr (co1 co2 : List (TopicPartition × Nat)) (tp : TopicPartition)
    (off : Nat) (h : alookup co1 tp = alookup co2 tp) :
    shouldCommit co1 tp off = shouldCommit co2 tp off := by
  unfold shouldCommit
  rw [h]

/-- C7: during maybe_commit, a tracked topic-partition with a non-empty ack list has
its longest consecutive initial run removed from the AckSet even when
_should_commit rejects the computed offset; in that case CurrentOffset(tp) is
unchanged and no driver commit is issued for tp, so those acknowledged offsets are
discarded without ever being committed. -/
theorem c7_discard (s : ConsumerState) (tp : TopicPartition) (off : Nat)
    (hnd : (s.acked.map Prod.fst).Nodup)
    (hmem : tp ∈ s.acked.map Prod.fst)
    (hoff : (newOffset (lookupAcked s tp)).1 = some off)
    (hsc : shouldCommit s.current_offset tp off = false) :
    lookupAcked (maybeCommit s).1 tp = (newOffset (lookupAcked s tp)).2 ∧
    alookup (maybeCommit s).1.current_offset tp = alookup s.current_offset tp ∧
    ∀ o, (tp, o) ∉ (maybeCommit s).2 := by
  obtain ⟨ks1, ks2, hkeys⟩ := List.append_of_mem hmem
  have hnd2 : (ks1 ++ tp :: ks2).Nodup := hkeys ▸ hnd
  have hmid := List.nodup_middle.mp hnd2
  have hni : tp ∉ ks1 ++ ks2 := (List.nodup_cons.mp hmid).1
  have htp1 : tp ∉ ks1 := fun hh => hni (List.mem_append.mpr (Or.inl hh))
  have htp2 : tp ∉ ks2 := fun hh => hni (List.mem_append.mpr (Or.inr hh))
  have hfr1 := maybeCommitAux_frame tp ks1 s htp1
  have hla : lookupAcked (maybeCommitAux ks1 s).1 tp = lookupAcked s tp := by
    unfold lookupAcked
    rw [hfr1.1]
  have hsc1 : shouldCommit (maybeCommitAux ks1 s).1.current_offset tp off = false := by
    rw [shouldCommit_congr _ s.current_offset tp off hfr1.2]
    exact hsc
  have hstep : maybeCommitAux (tp :: ks2) (maybeCommitAux ks1 s).1
      = maybeCommitAux ks2
          (⟨aset (maybeCommitAux ks1 s).1.acked tp (newOffset (lookupAcked s tp)).2,
            (maybeCommitAux ks1 s).1.current_offset,
            (maybeCommitAux ks1 s).1.recently_acked⟩ : ConsumerState) := by
    simp only [maybeCommitAux, hla, hoff]
    rw [if_neg (by simp [hsc1])]
  have heq : maybeCommit s
      = ((maybeCommitAux ks2
            (⟨aset (maybeCommitAux ks1 s).1.acked tp (newOffset (lookupAcked s tp)).2,
              (maybeCommitAux ks1 s).1.current_offset,
              (maybeCommitAux ks1 s).1.recently_acked⟩ : ConsumerState)).1,
         (maybeCommitAux ks1 s).2
           ++ (maybeCommitAux ks2
            (⟨aset (maybeCommitAux ks1 s).1.acked tp (newOffset (lookupAcked s tp)).2,
              (maybeCommitAux ks1 s).1.current_offset,
              (maybeCommitAux ks1 s).1.recently_acked⟩ : ConsumerState)).2) := by
    unfold maybeCommit
    rw [hkeys, maybeCommitAux_append ks1 (tp :: ks2) s, hstep]
  have hfr2 := maybeCommitAux_frame tp ks2
    (⟨aset (maybeCommitAux ks1 s).1.acked tp (newOffset (lookupAcked s tp)).2,
      (maybeCommitAux ks1 s).1.current_offset,
      (maybeCommitAux ks1 s).1.recently_acked⟩ : ConsumerState) htp2
  have hM1 : (maybeCommit s).1
      = (maybeCommitAux ks2
          (⟨aset (maybeCommitAux ks1 s).1.acked tp (newOffset (lookupAcked s tp)).2,
            (maybeCommitAux ks1 s).1.current_offset,
            (maybeCommitAux ks1 s).1.recently_acked⟩ : ConsumerState)).1 := by
    rw [heq]
  have hM2 : (maybeCommit s).2
      = (maybeCommitAux ks1 s).2
          ++ (maybeCommitAux ks2
            (⟨aset (maybeCommitAux ks1 s).1.acked tp (newOffset (lookupAcked s tp)).2,
              (maybeCommitAux ks1 s).1.current_offset,
              (maybeCommitAux ks1 s).1.recently_acked⟩ : ConsumerState)).2 := by
    rw [heq]
  refine ⟨?_, ?_, ?_⟩
  · rw [hM1]
    exact congrArg (fun o => Option.getD o []) (hfr2.1.trans (alookup_aset_self _ _ _))
  · rw [hM1]
    exact hfr2.2.trans hfr1.2
  · intro o hin
    rw [hM2] at hin
    rcases List.mem_append.mp hin with h1 | h2
    · exact htp1 (maybeCommitAux_commits ks1 s (tp, o) h1)
    · exact htp2 (maybeCommitAux_commits ks2 _ (tp, o) h2)

/-- Consumer state of the C7 witness: one pending ack at offset 5 on tp0,
CurrentOffset already at 9, so _should_commit rejects the computed offset 5. -/
def c7state : ConsumerState := ⟨[(tp0, [5])], [(tp0, 9)], []⟩

/-- C7 witness: the discarded-ack behavior at the concrete state; offset 5 is
removed from the ack list, CurrentOffset stays 9, and no commit is issued. -/
theorem c7_witness :
    lookupAcked (maybeCommit c7state).1 tp0 = (newOffset (lookupAcked c7state tp0)).2 ∧
    alookup (maybeCommit c7state).1.current_offset tp0
      = alookup c7state.current_offset tp0 ∧
    (tp0, 5) ∉ (maybeCommit c7state).2 := by
  have h := c7_discard c7state tp0 5 (by decide) (by decide) (by decide) (by decide)
  exact ⟨h.1, h.2.1, h.2.2 5⟩

end Faust
